import Mathlib

/-!
Verification of the re-ranking and evaluation subsystem of the
INFO5612 news-recommendation project (LSTUR / NRMS notebooks with an
MMR re-ranking step and NDCG / diversity metrics).

The notebooks under `src/` contain the per-user record assembly
(`get_df`), the min-max score normalization (`normalize_array`) and the
lambda sweep loop; those are embedded here directly from the source.
The modules `MMR.py` and `evaluation.py` are imported by the notebooks
but are not part of the source tree, so the MMR re-ranker, the item
similarity, NDCG and the diversity metric are modelled from the
specification, as indicated on each definition.

Real-valued scores are modelled as exact rationals; the IEEE NaN that
numpy produces on a zero-range division is modelled by `Option.none`.
-/

namespace NewsRec

/-! ## MMR re-ranker (spec-modelled)

`MMR.py` is not under `src/`; the definitions in this section are
modelled from the specification of `MMRReranker` (spec section 4.4). -/

/-- Modelled from the spec: a candidate entry of a user's
`CandidateList`.  `pos` is the original rank position inside the list
(the documented deterministic tie-break), `id` the opaque item
identifier and `score` the (already normalized) predicted score. -/
structure Cand where
  pos : ℕ
  id : ℕ
  score : ℚ
deriving DecidableEq, Repr

/-- The documented deterministic order used by the plain descending
sort: higher score first, ties broken by original rank position
(earlier first), and for completeness by item id. -/
def mmrLe (a b : Cand) : Prop :=
  b.score < a.score ∨
    (a.score = b.score ∧ (a.pos < b.pos ∨ (a.pos = b.pos ∧ a.id ≤ b.id)))

instance : DecidableRel mmrLe := fun a b => by
  unfold mmrLe
  infer_instance

instance : IsTrans Cand mmrLe := by
  constructor
  intro a b c hab hbc
  rcases hab with h1 | ⟨h1, h1'⟩ <;> rcases hbc with h2 | ⟨h2, h2'⟩
  · exact Or.inl (h2.trans h1)
  · exact Or.inl (h2 ▸ h1)
  · exact Or.inl (h1 ▸ h2)
  · refine Or.inr ⟨h1.trans h2, ?_⟩
    rcases h1' with h3 | ⟨h3, h3'⟩ <;> rcases h2' with h4 | ⟨h4, h4'⟩
    · exact Or.inl (h3.trans h4)
    · exact Or.inl (h4 ▸ h3)
    · exact Or.inl (h3 ▸ h4)
    · exact Or.inr ⟨h3.trans h4, h3'.trans h4'⟩

instance : IsTotal Cand mmrLe := by
  constructor
  intro a b
  rcases lt_trichotomy a.score b.score with h | h | h
  · exact Or.inr (Or.inl h)
  · rcases lt_trichotomy a.pos b.pos with h2 | h2 | h2
    · exact Or.inl (Or.inr ⟨h, Or.inl h2⟩)
    · rcases Nat.le_total a.id b.id with h3 | h3
      · exact Or.inl (Or.inr ⟨h, Or.inr ⟨h2, h3⟩⟩)
      · exact Or.inr (Or.inr ⟨h.symm, Or.inr ⟨h2.symm, h3⟩⟩)
    · exact Or.inr (Or.inr ⟨h.symm, Or.inl h2⟩)
  · exact Or.inl (Or.inl h)

instance : IsAntisymm Cand mmrLe := by
  constructor
  intro a b hab hba
  rcases hab with h1 | ⟨h1, h1'⟩ <;> rcases hba with h2 | ⟨h2, h2'⟩
  · exact absurd (h1.trans h2) (lt_irrefl _)
  · exact absurd h1 (h2 ▸ lt_irrefl _)
  · exact absurd h2 (h1 ▸ lt_irrefl _)
  · obtain ⟨pa, ia, sa⟩ := a
    obtain ⟨pb, ib, sb⟩ := b
    simp only [Cand.mk.injEq]
    simp only at h1 h1' h2'
    rcases h1' with h3 | ⟨h3, h3'⟩ <;> rcases h2' with h4 | ⟨h4, h4'⟩ <;>
      refine ⟨by omega, by omega, h1⟩

/-- `mmrLe` is reflexive. -/
theorem mmrLe_refl (a : Cand) : mmrLe a a :=
  Or.inr ⟨rfl, Or.inr ⟨rfl, le_refl _⟩⟩

/-- Modelled from the spec: `max_{s in selected} similarity(item, s)`,
defined as `0` when `selected` is empty (spec section 4.4 step 3a). -/
def maxSim (sim : ℕ → ℕ → ℚ) (i : ℕ) : List ℕ → ℚ
  | [] => 0
  | [s] => sim i s
  | s :: s' :: rest => max (sim i s) (maxSim sim i (s' :: rest))

/-- Modelled from the spec: the MMR score of a remaining candidate
against the already selected items (spec section 4.4 step 3a):
`lam * normalized_score − (1 − lam) * max similarity to selected`. -/
def mmrScore (sim : ℕ → ℕ → ℚ) (lam : ℚ) (selected : List ℕ) (c : Cand) : ℚ :=
  lam * c.score - (1 - lam) * maxSim sim c.id selected

/-- Modelled from the spec: the greedy argmax of spec section 4.4 step
3b — the first candidate (in current list order, i.e. original rank
order) attaining the maximal value of `f`. -/
def pickBest (f : Cand → ℚ) : List Cand → Option Cand
  | [] => none
  | c :: rest =>
    match pickBest f rest with
    | none => some c
    | some b => if f c < f b then some b else some c

/-- Modelled from the spec: the greedy MMR selection loop (spec section
4.4 steps 2–4).  Each step picks the remaining candidate with maximal
MMR score, records the candidate together with its per-step MMR score,
moves its id into `selected` and erases it from `remaining`. -/
def mmr_user (sim : ℕ → ℕ → ℚ) (lam : ℚ) :
    ℕ → List ℕ → List Cand → List (Cand × ℚ)
  | 0, _, _ => []
  | fuel + 1, selected, remaining =>
    match pickBest (mmrScore sim lam selected) remaining with
    | none => []
    | some c =>
      (c, mmrScore sim lam selected c) ::
        mmr_user sim lam fuel (c.id :: selected) (remaining.erase c)

/-- Attach the original rank position to each (id, score) pair of a
candidate list. -/
def tag (cands : List (ℕ × ℚ)) : List Cand :=
  cands.enum.map (fun p => ⟨p.1, p.2.1, p.2.2⟩)

/-- Modelled from the spec: `rerank` (spec sections 4.4 and 7).
Configuration errors — `k ≤ 0`, `lam` outside `[0,1]`, an empty
candidate list — fail fast with an error surfaced to the caller;
otherwise the greedy MMR selection runs with fuel `k`. -/
def rerank (sim : ℕ → ℕ → ℚ) (cands : List (ℕ × ℚ)) (lam : ℚ) (k : ℤ) :
    Except String (List (Cand × ℚ)) :=
  if k ≤ 0 then Except.error "ConfigurationError: k must be a positive integer"
  else if lam < 0 ∨ 1 < lam then
    Except.error "ConfigurationError: lambda must lie in the unit interval"
  else if cands.isEmpty then
    Except.error "ConfigurationError: empty candidate list"
  else Except.ok (mmr_user sim lam k.toNat [] (tag cands))

/-! ## Min-max normalization (from `normalize_array` in both notebooks)

Source: `def normalize_array(arr): return (arr - np.min(arr)) / (np.max(arr) - np.min(arr))`.
`np.min` / `np.max` on an empty array raise, and when the maximum equals
the minimum every entry becomes the float `0.0 / 0.0 = NaN`; both
outcomes are modelled by `none`. -/

/-- Embedding of `normalize_array` from the notebooks.  `none` models a
raised error (empty input) or an all-NaN result (zero-range division);
otherwise each entry `x` is mapped to `(x - min) / (max - min)`. -/
def normalize_array (arr : List ℚ) : Option (List ℚ) :=
  match arr with
  | [] => none
  | a :: rest =>
    let mn := rest.foldl min a
    let mx := rest.foldl max a
    if mx - mn = 0 then none
    else some ((a :: rest).map (fun x => (x - mn) / (mx - mn)))

/-! ## Per-user record assembly (from `get_df` in both notebooks)

Both notebooks open the behaviors file, take the last four
tab-separated fields of each line as `uid, time, history, impr`, split
the impression field on whitespace, keep the part of each token before
the first `-`, and pair each line's impression ids with the
corresponding row of model predictions.  The LSTUR notebook then
explodes the frame into one row per (user, item), sorts by
`["user_id", "pred"]` descending and aggregates per user the columns
`news_id`, `pred` and `label` into lists — but no `label` column was
ever created, so pandas raises a `KeyError`.  The NRMS notebook returns
the assembled frame as is, without exploding, sorting or grouping. -/

/-- Character-level splitting used to embed Python's `str.split`. -/
def splitAux (sep : Char) : List Char → List Char → List (List Char)
  | [], acc => [acc.reverse]
  | c :: cs, acc =>
    if c = sep then acc.reverse :: splitAux sep cs []
    else splitAux sep cs (c :: acc)

/-- Split a string on a separator character. -/
def splitBy (sep : Char) (s : String) : List String :=
  (splitAux sep s.data []).map (fun cs => String.mk cs)

/-- Embedding of `uid, time, history, impr = line.strip("\n").split('\t')[-4:]`:
the last four tab-separated fields, of which the model keeps `uid` and
`impr`.  `none` models the `ValueError` raised when fewer than four
fields are present. -/
def parseLine (line : String) : Option (String × String) :=
  match (splitBy '\t' line).reverse with
  | impr :: _history :: _time :: uid :: _ => some (uid, impr)
  | _ => none

/-- Embedding of `[i.split("-")[0] for i in impr.split()]`: the item ids
shown in the impression, in display order. -/
def imprNews (impr : String) : List String :=
  ((splitBy ' ' impr).filter (fun s => s ≠ "")).map
    (fun i => (splitBy '-' i).headI)

/-- A row of the assembled frame before exploding: user id, item ids in
shown order, and the aligned prediction row `group_preds[i]`. -/
abbrev RawRow := String × List String × List ℚ

namespace LSTUR

/-- Embedding of the assembly loop of `get_df` (LSTUR notebook): one
`RawRow` per behaviors line, consuming one prediction row per line.
`none` models a raised `ValueError` (malformed line) or `IndexError`
(`group_preds[i]` out of range). -/
def extractRows : List String → List (List ℚ) → Option (List RawRow)
  | [], _ => some []
  | line :: rest, preds =>
    match parseLine line with
    | none => none
    | some (uid, impr) =>
      match preds with
      | [] => none
      | p :: prest =>
        match extractRows rest prest with
        | none => none
        | some rs => some ((uid, imprNews impr, p) :: rs)

/-- Embedding of `user_rec_df.explode(['news_id', 'pred'])`: one row per
(user, item, score); `none` models the `ValueError` pandas raises when
the two list columns of a row have different lengths. -/
def explodeRows : List RawRow → Option (List (String × String × ℚ))
  | [] => some []
  | (u, ids, ps) :: rest =>
    if ids.length = ps.length then
      match explodeRows rest with
      | none => none
      | some rs => some ((ids.zip ps).map (fun q => (u, q.1, q.2)) ++ rs)
    else none

/-- The order of `sort_values(["user_id", "pred"], ascending=False)`:
user id descending (lexicographic on code points), then predicted score
descending. -/
def rowLe (r s : String × String × ℚ) : Prop :=
  List.Lex (fun a b : Char => a.val < b.val) s.1.data r.1.data ∨
    (r.1 = s.1 ∧ s.2.2 ≤ r.2.2)

instance : DecidableRel rowLe := fun r s => by
  unfold rowLe
  exact instDecidableOr

/-- The column names of the assembled frame (`user_id`, `news_id`,
`pred`) and the columns the final `groupby(...).agg` asks for.  The
`agg` dictionary references a `label` column, but no such column exists
in the frame. -/
def frameCols : List String := ["user_id", "news_id", "pred"]

/-- Columns aggregated by `agg({"news_id": list, "pred": list, "label": list})`. -/
def aggCols : List String := ["news_id", "pred", "label"]

/-- Group consecutive exploded rows of one user back into lists, as
`groupby("user_id").agg(...)` would. -/
def groupRows : List (String × String × ℚ) → List RawRow
  | [] => []
  | (u, n, p) :: rest =>
    match groupRows rest with
    | [] => [(u, [n], [p])]
    | (u', ns, ps) :: gs =>
      if u = u' then (u, n :: ns, p :: ps) :: gs
      else (u, [n], [p]) :: (u', ns, ps) :: gs

/-- Embedding of `get_df` from the LSTUR notebook: assemble, explode,
sort by (user_id, pred) descending, then aggregate the columns listed
in `aggCols` per user.  The aggregation references the nonexistent
`label` column, so pandas raises `KeyError` whenever it is reached. -/
def get_df (behaviors : List String) (group_preds : List (List ℚ)) :
    Except String (List RawRow) :=
  match extractRows behaviors group_preds with
  | none => Except.error "ValueError: malformed behaviors input"
  | some rows =>
    match explodeRows rows with
    | none => Except.error "ValueError: columns must have matching element counts"
    | some exploded =>
      let sorted := List.insertionSort rowLe exploded
      match aggCols.find? (fun c => ¬ frameCols.contains c) with
      | some c => Except.error ("KeyError: " ++ c)
      | none => Except.ok (groupRows sorted)

end LSTUR

namespace NRMS

/-- Embedding of the assembly loop of `get_df` (NRMS notebook); the loop
body is identical to the LSTUR one. -/
def extractRows : List String → List (List ℚ) → Option (List RawRow)
  | [], _ => some []
  | line :: rest, preds =>
    match parseLine line with
    | none => none
    | some (uid, impr) =>
      match preds with
      | [] => none
      | p :: prest =>
        match extractRows rest prest with
        | none => none
        | some rs => some ((uid, imprNews impr, p) :: rs)

/-- Embedding of `get_df` from the NRMS notebook: it returns the
assembled frame directly — no explode, no sort, no grouping and no
label column. -/
def get_df (behaviors : List String) (group_preds : List (List ℚ)) :
    Except String (List RawRow) :=
  match extractRows behaviors group_preds with
  | none => Except.error "ValueError: malformed behaviors input"
  | some rows => Except.ok rows

end NRMS

/-! ## The lambda sweep (from the results cell of both notebooks)

Source: `lamdas = [x/100.0 for x in range(0, 125, 25)]`, then two empty
accumulator lists, then — before the loop —
`exploded_df = df.copy().reset_index().explode(['pred', 'label', 'news_id'])`,
then a loop that, for each lambda, reranks, appends one diversity value
to `diversities` and one NDCG value to `ndcgs`.  The frame `df` has
only the columns `user_id`, `news_id`, `pred` in both notebooks, so the
pre-loop `explode` references a nonexistent `label` column and pandas
raises `KeyError` before the loop ever appends a value.  The per-lambda
computations inside the loop call into `MMR.py` / `evaluation.py` (not
under `src/`) and are abstracted as functions of lambda. -/

/-- Embedding of `lamdas = [x/100.0 for x in range(0, 125, 25)]`. -/
def lamdas : List ℚ := (List.range' 0 5 25).map (fun x => (x : ℚ) / 100)

/-- Embedding of the loop body alone: starting from two empty
accumulator lists, each iteration appends `divF lam` to the first and
`ndcgF lam` to the second, in the order of the swept lambda values.
The loop is reached only when the pre-loop `explode` of `sweep_cell`
succeeded. -/
def sweep (divF ndcgF : ℚ → ℚ) (ls : List ℚ) : List ℚ × List ℚ :=
  ls.foldl (fun acc lam => (acc.1 ++ [divF lam], acc.2 ++ [ndcgF lam])) ([], [])

/-- The columns referenced by the pre-loop
`explode(['pred', 'label', 'news_id'])` of the sweep cell. -/
def explodeCols : List String := ["pred", "label", "news_id"]

/-- Embedding of the whole sweep cell: the pre-loop
`exploded_df = df.copy().reset_index().explode(['pred', 'label', 'news_id'])`
raises `KeyError` for the first referenced column absent from the frame
(whose columns are `cols`); only when every column exists does the loop
run and append one diversity and one NDCG value per lambda. -/
def sweep_cell (cols : List String) (divF ndcgF : ℚ → ℚ) (ls : List ℚ) :
    Except String (List ℚ × List ℚ) :=
  match explodeCols.find? (fun c => !decide (c ∈ cols)) with
  | some c => Except.error ("KeyError: " ++ c)
  | none => Except.ok (sweep divF ndcgF ls)

/-! ## NDCG (spec-modelled)

`evaluation.py` is not under `src/`; `calculate_ndcg_at_k` is modelled
from spec section 4.5 Contract A.  The per-position discount
`1 / log2(i + 1)` is an irrational real; it is kept abstract as a
rational-valued weight `disc : ℕ → ℚ` (with `disc i` standing for
`1 / log2(i + 1)`), so that every statement below holds for the actual
logarithmic discount. -/

namespace evaluation

/-- Modelled from the spec: `DCG@k = Σ_{i=1..k} label_i / log2(i+1)`
over the first `k` entries of the ranked label list, with the discount
kept abstract (`disc i` stands for `1 / log2(i+1)`). -/
def dcg_at_k (disc : ℕ → ℚ) (labels : List ℕ) (k : ℕ) : ℚ :=
  (((labels.take k).enum).map (fun p => (p.2 : ℚ) * disc (p.1 + 1))).sum

/-- The ideal ordering: the label list sorted descending. -/
def sortLabelsDesc (labels : List ℕ) : List ℕ :=
  List.insertionSort (fun a b : ℕ => b ≤ a) labels

/-- Modelled from the spec: `IDCG@k` is the `DCG@k` of the list sorted
by label descending. -/
def idcg_at_k (disc : ℕ → ℚ) (labels : List ℕ) (k : ℕ) : ℚ :=
  dcg_at_k disc (sortLabelsDesc labels) k

/-- Modelled from the spec: `NDCG@k = DCG@k / IDCG@k`, defined as 0
when `IDCG@k = 0` (rational division by zero yields 0, which is
exactly the fallback the spec prescribes). -/
def ndcg_at_k (disc : ℕ → ℚ) (labels : List ℕ) (k : ℕ) : ℚ :=
  dcg_at_k disc labels k / idcg_at_k disc labels k

/-- Modelled from the spec: `calculate_ndcg_at_k` aggregates the
per-user NDCG values by their mean across all users of the run. -/
def calculate_ndcg_at_k (disc : ℕ → ℚ) (userLabels : List (List ℕ)) (k : ℕ) : ℚ :=
  ((userLabels.map (fun ls => ndcg_at_k disc ls k)).sum) / userLabels.length

/-! ## Diversity (spec-modelled)

`evaluation.diversity_eval` is modelled from spec section 4.5
Contract B: the mean of `1 − similarity(item_i, item_j)` over all
unordered item pairs of a user's top-k list, 0 for a single-item list,
aggregated by mean across users.  The item-similarity primitive is a
parameter `sim`. -/

/-- Modelled from the spec: the sum of `1 − sim` over all unordered
pairs of the list (each pair counted once). -/
def pairSum (sim : ℕ → ℕ → ℚ) : List ℕ → ℚ
  | [] => 0
  | a :: rest => ((rest.map (fun b => 1 - sim a b)).sum) + pairSum sim rest

/-- Number of unordered pairs of an `n`-element list. -/
def numPairs (n : ℕ) : ℕ := n * (n - 1) / 2

/-- Modelled from the spec: mean pairwise dissimilarity of one user's
top-k list; defined as 0 when the list has no pairs (length ≤ 1). -/
def diversity (sim : ℕ → ℕ → ℚ) (items : List ℕ) : ℚ :=
  if items.length ≤ 1 then 0
  else pairSum sim items / (numPairs items.length : ℚ)

/-- Modelled from the spec: `diversity_eval` aggregates the per-user
diversity values by their mean across all users of the run. -/
def diversity_eval (sim : ℕ → ℕ → ℚ) (users : List (List ℕ)) : ℚ :=
  ((users.map (fun items => diversity sim items)).sum) / users.length

end evaluation

/-! ## Item similarity (spec-modelled)

`MMR.py`'s similarity primitive is modelled from spec sections 4.1–4.3:
an item vector is the mean of the embedding vectors of its in-vocabulary
title tokens (an all-OOV item yields the zero vector), and similarity is
the cosine of the two item vectors, defined as 0 against a zero
vector.  Vectors carry exact rational entries; the cosine itself lives
in `ℝ` because it divides by the (generally irrational) norms. -/

/-- Dot product of two rational vectors. -/
def dot (a b : List ℚ) : ℚ := (List.zipWith (fun x y => x * y) a b).sum

/-- Pointwise sum of two rational vectors (same length intended). -/
def addVec (a b : List ℚ) : List ℚ := List.zipWith (fun x y => x + y) a b

/-- Scale a rational vector. -/
def scaleVec (c : ℚ) (a : List ℚ) : List ℚ := a.map (fun x => c * x)

/-- Modelled from the spec: the item vector of a token list — the mean
of the embedding vectors of the tokens found in the embedding store
(OOV tokens are skipped), and the zero vector when every token is
OOV.  `dim` is the fixed embedding dimension. -/
def itemVector (emb : String → Option (List ℚ)) (dim : ℕ)
    (tokens : List String) : List ℚ :=
  let vecs := tokens.filterMap emb
  if vecs.isEmpty then List.replicate dim 0
  else scaleVec (1 / (vecs.length : ℚ))
    (vecs.foldl addVec (List.replicate dim 0))

/-- Modelled from the spec: cosine similarity of two item vectors,
defined as 0 whenever either vector is the zero vector (equivalently,
has zero squared norm), so that no division by zero ever occurs. -/
noncomputable def cosSim (a b : List ℚ) : ℝ :=
  if dot a a = 0 ∨ dot b b = 0 then 0
  else ((dot a b : ℚ) : ℝ) /
    (Real.sqrt ((dot a a : ℚ) : ℝ) * Real.sqrt ((dot b b : ℚ) : ℝ))

/-! ## Helper lemmas about the greedy MMR selection -/

/-- Unfolding `pickBest` on a cons whose tail yields no pick. -/
theorem pickBest_cons_none {f : Cand → ℚ} {a : Cand} {rest : List Cand}
    (h : pickBest f rest = none) : pickBest f (a :: rest) = some a := by
  simp [pickBest, h]

/-- Unfolding `pickBest` on a cons whose tail yields a pick. -/
theorem pickBest_cons_some {f : Cand → ℚ} {a b : Cand} {rest : List Cand}
    (h : pickBest f rest = some b) :
    pickBest f (a :: rest) = if f a < f b then some b else some a := by
  simp [pickBest, h]

/-- `pickBest` returns `none` exactly on the empty list. -/
theorem pickBest_eq_none {f : Cand → ℚ} {l : List Cand} :
    pickBest f l = none ↔ l = [] := by
  cases l with
  | nil => simp [pickBest]
  | cons c rest =>
    constructor
    · intro h
      cases hb : pickBest f rest with
      | none => rw [pickBest_cons_none hb] at h; exact absurd h (by simp)
      | some b =>
        rw [pickBest_cons_some hb] at h
        by_cases hlt : f c < f b
        · rw [if_pos hlt] at h; exact absurd h (by simp)
        · rw [if_neg hlt] at h; exact absurd h (by simp)
    · intro h; exact absurd h (by simp)

/-- `pickBest` returns an element of the list. -/
theorem pickBest_mem {f : Cand → ℚ} : ∀ {l : List Cand} {c : Cand},
    pickBest f l = some c → c ∈ l := by
  intro l
  induction l with
  | nil => intro c h; simp [pickBest] at h
  | cons a rest ih =>
    intro c h
    cases hb : pickBest f rest with
    | none =>
      rw [pickBest_cons_none hb] at h
      simp at h
      simp [h]
    | some b =>
      rw [pickBest_cons_some hb] at h
      by_cases hlt : f a < f b
      · rw [if_pos hlt] at h
        simp at h
        exact List.mem_cons_of_mem a (h ▸ ih hb)
      · rw [if_neg hlt] at h
        simp at h
        simp [h]

/-- The value picked by `pickBest` maximizes `f`. -/
theorem pickBest_le {f : Cand → ℚ} : ∀ {l : List Cand} {c : Cand},
    pickBest f l = some c → ∀ x ∈ l, f x ≤ f c := by
  intro l
  induction l with
  | nil => intro c h; simp [pickBest] at h
  | cons a rest ih =>
    intro c h x hx
    cases hb : pickBest f rest with
    | none =>
      rw [pickBest_cons_none hb] at h
      simp at h
      rcases List.mem_cons.mp hx with hxa | hxr
      · exact le_of_eq (by rw [hxa, h])
      · exact absurd (pickBest_eq_none.mp hb ▸ hxr) (List.not_mem_nil x)
    | some b =>
      rw [pickBest_cons_some hb] at h
      by_cases hlt : f a < f b
      · rw [if_pos hlt] at h
        simp at h
        rcases List.mem_cons.mp hx with hxa | hxr
        · exact le_of_lt (hxa ▸ h ▸ hlt)
        · exact h ▸ ih hb x hxr
      · rw [if_neg hlt] at h
        simp at h
        rcases List.mem_cons.mp hx with hxa | hxr
        · exact le_of_eq (by rw [hxa, h])
        · exact le_trans (ih hb x hxr) (h ▸ not_lt.mp hlt)

/-- `pickBest` only looks at the values of `f`. -/
theorem pickBest_congr {f g : Cand → ℚ} (hfg : ∀ x, f x = g x) :
    ∀ l : List Cand, pickBest f l = pickBest g l := by
  intro l
  induction l with
  | nil => rfl
  | cons a rest ih =>
    simp only [pickBest, ih, hfg]

/-- On a list whose positions strictly increase, `pickBest Cand.score`
picks a candidate that is `mmrLe`-below every list element: it has
maximal score, and among maximal scores the least original position
(first occurrence). -/
theorem pickBest_score_best :
    ∀ {l : List Cand} {c : Cand},
      l.Pairwise (fun a b => a.pos < b.pos) →
      pickBest (fun x => x.score) l = some c → ∀ x ∈ l, mmrLe c x := by
  intro l
  induction l with
  | nil => intro c _ h; simp [pickBest] at h
  | cons a rest ih =>
    intro c hpw h x hx
    have hpos : ∀ y ∈ rest, a.pos < y.pos := (List.pairwise_cons.mp hpw).1
    have hpw' : rest.Pairwise (fun a b => a.pos < b.pos) :=
      (List.pairwise_cons.mp hpw).2
    cases hb : pickBest (fun x => x.score) rest with
    | none =>
      rw [pickBest_cons_none hb] at h
      simp at h
      rcases List.mem_cons.mp hx with hxa | hxr
      · exact hxa ▸ h ▸ mmrLe_refl a
      · exact absurd (pickBest_eq_none.mp hb ▸ hxr) (List.not_mem_nil x)
    | some b =>
      rw [pickBest_cons_some hb] at h
      by_cases hlt : a.score < b.score
      · rw [if_pos hlt] at h
        simp at h
        subst h
        rcases List.mem_cons.mp hx with hxa | hxr
        · exact hxa ▸ Or.inl hlt
        · exact ih hpw' hb x hxr
      · rw [if_neg hlt] at h
        simp at h
        subst h
        have hba : b.score ≤ a.score := not_lt.mp hlt
        rcases List.mem_cons.mp hx with hxa | hxr
        · exact hxa ▸ mmrLe_refl a
        · rcases ih hpw' hb x hxr with h1 | ⟨h1, _⟩
          · rcases lt_or_eq_of_le (h1.le.trans hba) with h2 | h2
            · exact Or.inl h2
            · exact Or.inr ⟨h2.symm, Or.inl (hpos x hxr)⟩
          · rcases lt_or_eq_of_le (h1.symm.le.trans hba) with h2 | h2
            · exact Or.inl h2
            · exact Or.inr ⟨h2.symm, Or.inl (hpos x hxr)⟩

/-- Unfolding `mmr_user` when `pickBest` finds no candidate. -/
theorem mmr_user_none {sim : ℕ → ℕ → ℚ} {lam : ℚ} {fuel : ℕ}
    {sel : List ℕ} {rem : List Cand}
    (h : pickBest (mmrScore sim lam sel) rem = none) :
    mmr_user sim lam (fuel + 1) sel rem = [] := by
  simp [mmr_user, h]

/-- Unfolding `mmr_user` when `pickBest` picks a candidate. -/
theorem mmr_user_some {sim : ℕ → ℕ → ℚ} {lam : ℚ} {fuel : ℕ}
    {sel : List ℕ} {rem : List Cand} {c : Cand}
    (h : pickBest (mmrScore sim lam sel) rem = some c) :
    mmr_user sim lam (fuel + 1) sel rem =
      (c, mmrScore sim lam sel c) ::
        mmr_user sim lam fuel (c.id :: sel) (rem.erase c) := by
  simp [mmr_user, h]

/-- The greedy selection returns `min fuel |remaining|` entries
(spec section 4.4 step 4 with `fuel = k`). -/
theorem mmr_user_length (sim : ℕ → ℕ → ℚ) (lam : ℚ) :
    ∀ (fuel : ℕ) (sel : List ℕ) (rem : List Cand),
      (mmr_user sim lam fuel sel rem).length = min fuel rem.length := by
  intro fuel
  induction fuel with
  | zero => intro sel rem; simp [mmr_user]
  | succ n ih =>
    intro sel rem
    cases hb : pickBest (mmrScore sim lam sel) rem with
    | none =>
      rw [mmr_user_none hb, pickBest_eq_none.mp hb]
      simp
    | some c =>
      have hc : c ∈ rem := pickBest_mem hb
      rw [mmr_user_some hb]
      have hlen : (rem.erase c).length = rem.length - 1 :=
        List.length_erase_of_mem hc
      have hpos : 1 ≤ rem.length := List.length_pos.mpr (List.ne_nil_of_mem hc)
      simp only [List.length_cons, ih, hlen]
      omega

/-- Every candidate output by the greedy selection comes from the
remaining list. -/
theorem mmr_user_fst_mem (sim : ℕ → ℕ → ℚ) (lam : ℚ) :
    ∀ (fuel : ℕ) (sel : List ℕ) (rem : List Cand) (p : Cand × ℚ),
      p ∈ mmr_user sim lam fuel sel rem → p.1 ∈ rem := by
  intro fuel
  induction fuel with
  | zero => intro sel rem p hp; simp [mmr_user] at hp
  | succ n ih =>
    intro sel rem p hp
    cases hb : pickBest (mmrScore sim lam sel) rem with
    | none => rw [mmr_user_none hb] at hp; exact absurd hp (List.not_mem_nil p)
    | some c =>
      rw [mmr_user_some hb] at hp
      rcases List.mem_cons.mp hp with hpc | hpr
      · exact hpc ▸ pickBest_mem hb
      · exact (List.erase_sublist c rem).mem (ih _ _ p hpr)

/-- If the remaining candidates carry pairwise distinct item ids, so
does the greedy selection's output (no duplicate item ids). -/
theorem mmr_user_ids_nodup (sim : ℕ → ℕ → ℚ) (lam : ℚ) :
    ∀ (fuel : ℕ) (sel : List ℕ) (rem : List Cand),
      (rem.map Cand.id).Nodup →
      ((mmr_user sim lam fuel sel rem).map (fun p => p.1.id)).Nodup := by
  intro fuel
  induction fuel with
  | zero => intro sel rem _; simp [mmr_user]
  | succ n ih =>
    intro sel rem hnd
    cases hb : pickBest (mmrScore sim lam sel) rem with
    | none => rw [mmr_user_none hb]; simp
    | some c =>
      have hc : c ∈ rem := pickBest_mem hb
      have hrem_nd : rem.Nodup := List.Nodup.of_map Cand.id hnd
      have herase_nd : ((rem.erase c).map Cand.id).Nodup :=
        List.Nodup.sublist (List.Sublist.map Cand.id (List.erase_sublist c rem)) hnd
      rw [mmr_user_some hb]
      rw [List.map_cons, List.nodup_cons]
      refine ⟨?_, ih _ _ herase_nd⟩
      intro hmem
      obtain ⟨p, hp, hpid⟩ := List.mem_map.mp hmem
      have hp_mem : p.1 ∈ rem.erase c := mmr_user_fst_mem sim lam _ _ _ p hp
      have hp_rem : p.1 ∈ rem := (List.erase_sublist c rem).mem hp_mem
      have : p.1 = c := List.inj_on_of_nodup_map hnd hp_rem hc hpid
      rw [this] at hp_mem
      exact ((List.Nodup.mem_erase_iff hrem_nd).mp hp_mem).1 rfl

/-- The positions of `tag cands` strictly increase along the list. -/
theorem tag_pairwise_pos (cands : List (ℕ × ℚ)) :
    (tag cands).Pairwise (fun a b => a.pos < b.pos) := by
  unfold tag
  rw [List.pairwise_map]
  have h : ∀ (n : ℕ) (l : List (ℕ × ℚ)),
      (l.enumFrom n).Pairwise (fun a b => a.1 < b.1) := by
    intro n l
    induction l generalizing n with
    | nil => simp
    | cons x xs ih =>
      rw [List.enumFrom_cons, List.pairwise_cons]
      refine ⟨?_, ih (n + 1)⟩
      intro p hp
      have : ∀ (m : ℕ) (ys : List (ℕ × ℚ)) (q : ℕ × (ℕ × ℚ)),
          q ∈ ys.enumFrom m → m ≤ q.1 := by
        intro m ys
        induction ys generalizing m with
        | nil => intro q hq; simp at hq
        | cons y ys ihy =>
          intro q hq
          rw [List.enumFrom_cons] at hq
          rcases List.mem_cons.mp hq with h1 | h1
          · rw [h1]
          · exact le_trans (Nat.le_succ m) (ihy (m + 1) q h1)
      exact lt_of_lt_of_le (Nat.lt_succ_self n) (this (n + 1) xs p hp)
  exact h 0 cands

/-- `tag` preserves length. -/
theorem tag_length (cands : List (ℕ × ℚ)) : (tag cands).length = cands.length := by
  simp [tag]

/-- The item ids of `tag cands` are the first components of `cands`. -/
theorem tag_map_id (cands : List (ℕ × ℚ)) :
    (tag cands).map Cand.id = cands.map Prod.fst := by
  unfold tag
  rw [List.map_map]
  have h : ∀ (n : ℕ) (l : List (ℕ × ℚ)),
      (l.enumFrom n).map ((fun c : Cand => c.id) ∘ fun p => ⟨p.1, p.2.1, p.2.2⟩)
        = l.map Prod.fst := by
    intro n l
    induction l generalizing n with
    | nil => rfl
    | cons y ys ihy =>
      rw [List.enumFrom_cons, List.map_cons, List.map_cons, ihy]
      rfl
  exact h 0 cands

/-- With `lam = 1` the MMR score of a candidate is exactly its
(normalized) predicted score: the diversity penalty vanishes. -/
theorem mmrScore_one (sim : ℕ → ℕ → ℚ) (sel : List ℕ) (c : Cand) :
    mmrScore sim 1 sel c = c.score := by
  unfold mmrScore
  ring

/-- Extracting an `mmrLe`-least element from the front of an insertion
sort: sorting `l` equals that element consed onto the sort of the rest. -/
theorem insertionSort_cons_of_best {l : List Cand} {c : Cand}
    (hc : c ∈ l) (hbest : ∀ x ∈ l, mmrLe c x) :
    List.insertionSort mmrLe l = c :: List.insertionSort mmrLe (l.erase c) := by
  refine List.eq_of_perm_of_sorted (r := mmrLe) ?_ ?_ ?_
  · exact (List.perm_insertionSort mmrLe l).trans
      ((List.perm_cons_erase hc).trans
        (List.Perm.cons c (List.perm_insertionSort mmrLe (l.erase c)).symm))
  · exact List.sorted_insertionSort mmrLe l
  · rw [List.sorted_cons]
    constructor
    · intro b hb
      have hb' : b ∈ l.erase c :=
        (List.perm_insertionSort mmrLe (l.erase c)).subset hb
      exact hbest b ((List.erase_sublist c l).mem hb')
    · exact List.sorted_insertionSort mmrLe (l.erase c)

/-- Core of claim C3: over a position-increasing candidate list the
greedy MMR selection with `lam = 1` lists, in order, the first `fuel`
entries of the plain descending sort by score (ties by original rank). -/
theorem mmr_user_one_eq_sort (sim : ℕ → ℕ → ℚ) :
    ∀ (fuel : ℕ) (sel : List ℕ) (rem : List Cand),
      rem.Pairwise (fun a b => a.pos < b.pos) →
      (mmr_user sim 1 fuel sel rem).map Prod.fst
        = (List.insertionSort mmrLe rem).take fuel := by
  intro fuel
  induction fuel with
  | zero => intro sel rem _; simp [mmr_user]
  | succ n ih =>
    intro sel rem hpw
    cases hb : pickBest (mmrScore sim 1 sel) rem with
    | none =>
      rw [mmr_user_none hb, pickBest_eq_none.mp hb]
      simp
    | some c =>
      have hb' : pickBest (fun x => x.score) rem = some c := by
        rw [← pickBest_congr (mmrScore_one sim sel) rem]
        exact hb
      have hc : c ∈ rem := pickBest_mem hb'
      have hbest : ∀ x ∈ rem, mmrLe c x := pickBest_score_best hpw hb'
      have hpw' : (rem.erase c).Pairwise (fun a b => a.pos < b.pos) :=
        List.Pairwise.sublist (List.erase_sublist c rem) hpw
      rw [mmr_user_some hb, List.map_cons,
        insertionSort_cons_of_best hc hbest, List.take_succ_cons, ih _ _ hpw']

/-- Claim C3: for every candidate list, every positive `k` and `lam = 1`,
`rerank` succeeds and its output order equals the plain descending sort
of the candidates by (normalized) predicted score, ties broken by the
documented rule (original rank order). -/
theorem rerank_lambda_one_is_sort (sim : ℕ → ℕ → ℚ)
    (cands : List (ℕ × ℚ)) (k : ℤ) (hk : 0 < k) (hne : cands ≠ []) :
    ∃ out, rerank sim cands 1 k = Except.ok out ∧
      out.map Prod.fst = (List.insertionSort mmrLe (tag cands)).take k.toNat := by
  refine ⟨mmr_user sim 1 k.toNat [] (tag cands), ?_, ?_⟩
  · unfold rerank
    rw [if_neg (not_le.mpr hk), if_neg (by norm_num),
      if_neg (by simp [List.isEmpty_iff, hne])]
  · exact mmr_user_one_eq_sort sim k.toNat [] (tag cands) (tag_pairwise_pos cands)

/-- Witness for claim C3 at a concrete two-candidate list with `k = 2`. -/
theorem rerank_lambda_one_is_sort_witness :
    (0 : ℤ) < 2 ∧ ([((10 : ℕ), (0 : ℚ)), (11, 1)] ≠ ([] : List (ℕ × ℚ))) ∧
      (∃ out, rerank (fun _ _ => 0) [((10 : ℕ), (0 : ℚ)), (11, 1)] 1 2 = Except.ok out ∧
        out.map Prod.fst =
          (List.insertionSort mmrLe (tag [((10 : ℕ), (0 : ℚ)), (11, 1)])).take (2 : ℤ).toNat) :=
  ⟨by decide, by decide,
    rerank_lambda_one_is_sort (fun _ _ => 0) [((10 : ℕ), (0 : ℚ)), (11, 1)] 2
      (by decide) (by decide)⟩

/-- Claim C4: for every valid candidate list (nonempty, unique item
ids), every `lam` in `[0,1]` and every positive `k`, `rerank` succeeds,
its output length is `min k |candidates|`, and the output contains no
duplicate item ids. -/
theorem rerank_length_and_nodup (sim : ℕ → ℕ → ℚ) (cands : List (ℕ × ℚ))
    (lam : ℚ) (k : ℤ) (hk : 0 < k) (h0 : 0 ≤ lam) (h1 : lam ≤ 1)
    (hne : cands ≠ []) (hnd : (cands.map Prod.fst).Nodup) :
    ∃ out, rerank sim cands lam k = Except.ok out ∧
      out.length = min k.toNat cands.length ∧
      (out.map (fun p => p.1.id)).Nodup := by
  refine ⟨mmr_user sim lam k.toNat [] (tag cands), ?_, ?_, ?_⟩
  · unfold rerank
    rw [if_neg (not_le.mpr hk),
      if_neg (by push_neg; exact ⟨h0, h1⟩),
      if_neg (by simp [List.isEmpty_iff, hne])]
  · rw [mmr_user_length, tag_length]
  · exact mmr_user_ids_nodup sim lam k.toNat [] (tag cands)
      (by rw [tag_map_id]; exact hnd)

/-- Witness for claim C4 at a concrete list with `lam = 0`, `k = 1`. -/
theorem rerank_length_and_nodup_witness :
    (0 : ℤ) < 1 ∧ (0 : ℚ) ≤ 0 ∧ (0 : ℚ) ≤ 1 ∧
      ([((10 : ℕ), (0 : ℚ)), (11, 1)] ≠ ([] : List (ℕ × ℚ))) ∧
      (([((10 : ℕ), (0 : ℚ)), (11, 1)].map Prod.fst).Nodup) ∧
      (∃ out, rerank (fun _ _ => 0) [((10 : ℕ), (0 : ℚ)), (11, 1)] 0 1 = Except.ok out ∧
        out.length = min (1 : ℤ).toNat ([((10 : ℕ), (0 : ℚ)), (11, 1)] : List (ℕ × ℚ)).length ∧
        (out.map (fun p => p.1.id)).Nodup) :=
  ⟨by decide, le_refl 0, zero_le_one, by decide, by decide,
    rerank_length_and_nodup (fun _ _ => 0) [((10 : ℕ), (0 : ℚ)), (11, 1)] 0 1
      (by decide) (le_refl 0) zero_le_one (by decide) (by decide)⟩

/-- Claim C9: every call to `rerank` with `k ≤ 0`, or `lam` outside
`[0,1]`, or an empty candidate list, fails fast with an error surfaced
to the caller instead of returning a degraded result. -/
theorem rerank_fails_fast (sim : ℕ → ℕ → ℚ) (cands : List (ℕ × ℚ))
    (lam : ℚ) (k : ℤ)
    (h : k ≤ 0 ∨ lam < 0 ∨ 1 < lam ∨ cands = []) :
    ∃ msg, rerank sim cands lam k = Except.error msg := by
  unfold rerank
  by_cases hk : k ≤ 0
  · exact ⟨_, by rw [if_pos hk]⟩
  · rw [if_neg hk]
    by_cases hlam : lam < 0 ∨ 1 < lam
    · exact ⟨_, by rw [if_pos hlam]⟩
    · rw [if_neg hlam]
      have hempty : cands = [] := by tauto
      exact ⟨_, by rw [if_pos (by simp [hempty])]⟩

/-- Witness for claim C9 with the misconfiguration `k = 0`. -/
theorem rerank_fails_fast_witness :
    ((0 : ℤ) ≤ 0 ∨ (0 : ℚ) < 0 ∨ 1 < (0 : ℚ) ∨ ([((10 : ℕ), (0 : ℚ))] : List (ℕ × ℚ)) = []) ∧
      (∃ msg, rerank (fun _ _ => 0) [((10 : ℕ), (0 : ℚ))] 0 0 = Except.error msg) :=
  ⟨Or.inl (by decide),
    rerank_fails_fast (fun _ _ => 0) [((10 : ℕ), (0 : ℚ))] 0 0 (Or.inl (by decide))⟩

/-! ## Claim C1: min-max normalization -/

/-- The running `min` of a nonempty list bounds every element below. -/
theorem foldl_min_le (a : ℚ) (l : List ℚ) : ∀ x ∈ a :: l, l.foldl min a ≤ x := by
  induction l generalizing a with
  | nil => intro x hx; simp at hx; simp [hx]
  | cons b t ih =>
    intro x hx
    rw [List.foldl_cons]
    rcases List.mem_cons.mp hx with hxa | hx'
    · exact le_trans (le_trans (ih (min a b) (min a b) (List.mem_cons_self _ _))
        (min_le_left a b)) (le_of_eq hxa.symm)
    · rcases List.mem_cons.mp hx' with hxb | hxt
      · exact le_trans (le_trans (ih (min a b) (min a b) (List.mem_cons_self _ _))
          (min_le_right a b)) (le_of_eq hxb.symm)
      · exact ih (min a b) x (List.mem_cons_of_mem _ hxt)

/-- The running `max` of a nonempty list bounds every element above. -/
theorem le_foldl_max (a : ℚ) (l : List ℚ) : ∀ x ∈ a :: l, x ≤ l.foldl max a := by
  induction l generalizing a with
  | nil => intro x hx; simp at hx; simp [hx]
  | cons b t ih =>
    intro x hx
    rw [List.foldl_cons]
    rcases List.mem_cons.mp hx with hxa | hx'
    · exact le_trans (le_of_eq hxa) (le_trans (le_max_left a b)
        (ih (max a b) (max a b) (List.mem_cons_self _ _)))
    · rcases List.mem_cons.mp hx' with hxb | hxt
      · exact le_trans (le_of_eq hxb) (le_trans (le_max_right a b)
          (ih (max a b) (max a b) (List.mem_cons_self _ _)))
      · exact ih (max a b) x (List.mem_cons_of_mem _ hxt)

/-- Unfolding `normalize_array` on a nonempty list. -/
theorem normalize_array_cons (a : ℚ) (rest : List ℚ) :
    normalize_array (a :: rest) =
      if rest.foldl max a - rest.foldl min a = 0 then none
      else some ((a :: rest).map (fun x =>
        (x - rest.foldl min a) / (rest.foldl max a - rest.foldl min a))) := rfl

/-- Counterexample to claim C1 as stated: on a candidate list whose
scores are all equal (`max = min`), `normalize_array` does not
substitute any defined constant value — the zero-range division makes
every entry NaN (modelled `none`), so no output list exists at all. -/
theorem normalize_array_equal_scores_no_output :
    ¬ ∃ out, normalize_array [(1 : ℚ), 1] = some out := by
  simp [normalize_array]

/-- Claim C1 as amended: on a nonempty score list whose range is
nonzero, `normalize_array` is defined, preserves length and maps every
score into `[0,1]`; when all scores are equal (`max = min`) the result
is the undefined NaN outcome (`none`) rather than a defined constant. -/
theorem normalize_array_amended (a : ℚ) (rest : List ℚ) :
    (rest.foldl max a - rest.foldl min a ≠ 0 →
      ∃ out, normalize_array (a :: rest) = some out ∧
        out.length = (a :: rest).length ∧ ∀ x ∈ out, 0 ≤ x ∧ x ≤ 1) ∧
    (rest.foldl max a - rest.foldl min a = 0 →
      normalize_array (a :: rest) = none) := by
  constructor
  · intro hne
    have hmnmx : rest.foldl min a ≤ rest.foldl max a :=
      le_trans (foldl_min_le a rest a (List.mem_cons_self _ _))
        (le_foldl_max a rest a (List.mem_cons_self _ _))
    have hlt : rest.foldl min a < rest.foldl max a :=
      lt_of_le_of_ne hmnmx (fun h => hne (by rw [h, sub_self]))
    have hpos : 0 < rest.foldl max a - rest.foldl min a := by linarith
    refine ⟨(a :: rest).map
      (fun x => (x - rest.foldl min a) / (rest.foldl max a - rest.foldl min a)),
      ?_, by simp, ?_⟩
    · rw [normalize_array_cons, if_neg hne]
    · intro x hx
      obtain ⟨y, hy, hyx⟩ := List.mem_map.mp hx
      subst hyx
      constructor
      · exact div_nonneg (by linarith [foldl_min_le a rest y hy]) (le_of_lt hpos)
      · rw [div_le_one hpos]
        linarith [le_foldl_max a rest y hy]
  · intro heq
    rw [normalize_array_cons, if_pos heq]

/-- Witness for the amended claim C1: the nonzero-range branch at
`[0, 1]` and the zero-range branch at `[1, 1]`. -/
theorem normalize_array_amended_witness :
    (List.foldl max (0 : ℚ) [1] - List.foldl min (0 : ℚ) [1] ≠ 0) ∧
      (∃ out, normalize_array [(0 : ℚ), 1] = some out ∧
        out.length = ([(0 : ℚ), 1] : List ℚ).length ∧ ∀ x ∈ out, 0 ≤ x ∧ x ≤ 1) ∧
      (List.foldl max (1 : ℚ) [1] - List.foldl min (1 : ℚ) [1] = 0) ∧
      normalize_array [(1 : ℚ), 1] = none :=
  ⟨by simp, (normalize_array_amended 0 [1]).1 (by simp),
    by simp, (normalize_array_amended 1 [1]).2 (by simp)⟩

/-! ## Claims C2 and C10: per-user record assembly -/

/-- The column check of the final `groupby(...).agg` of the LSTUR
`get_df`: the aggregation dictionary asks for a `label` column that the
frame does not have. -/
theorem aggCols_missing_label :
    List.find? (fun c => !decide (c ∈ LSTUR.frameCols)) LSTUR.aggCols = some "label" := by
  decide

/-- Claim C2 (code bug): the LSTUR `get_df` never returns a record set —
every invocation errors, and at a well-formed concrete behaviors line it
raises the `KeyError` for the `label` column that was never created. -/
theorem get_df_always_fails :
    (∀ behaviors group_preds, ∃ msg,
      LSTUR.get_df behaviors group_preds = Except.error msg) ∧
    LSTUR.get_df ["U1\t11/11\tN0\tN1-1 N2-0"] [[(9 : ℚ)/10, 1/10]] =
      Except.error "KeyError: label" := by
  constructor
  · intro behaviors group_preds
    cases hx : LSTUR.extractRows behaviors group_preds with
    | none =>
      exact ⟨"ValueError: malformed behaviors input", by simp [LSTUR.get_df, hx]⟩
    | some rows =>
      cases he : LSTUR.explodeRows rows with
      | none =>
        exact ⟨"ValueError: columns must have matching element counts",
          by simp [LSTUR.get_df, hx, he]⟩
      | some exploded =>
        exact ⟨"KeyError: " ++ "label",
          by simp [LSTUR.get_df, hx, he, aggCols_missing_label]⟩
  · rfl

/-- Counterexample to claim C10 as stated: on the same well-formed
input the NRMS `get_df` succeeds but returns the extracted rows exactly
as assembled — the predicted scores `[1/10, 9/10]` are ascending, so no
descending sort (and no grouping step) took place — while the LSTUR
`get_df` fails outright, so the two pipelines do not produce the same
per-user record structure. -/
theorem get_df_pipelines_differ :
    NRMS.get_df ["U1\t11/11\tN0\tN1-0 N2-1"] [[(1 : ℚ)/10, 9/10]] =
      Except.ok [("U1", ["N1", "N2"], [(1 : ℚ)/10, 9/10])] ∧
    ¬ ((9 : ℚ)/10 ≤ 1/10) ∧
    LSTUR.get_df ["U1\t11/11\tN0\tN1-0 N2-1"] [[(1 : ℚ)/10, 9/10]] =
      Except.error "KeyError: label" := by
  refine ⟨rfl, by norm_num, rfl⟩

/-- Claim C10 as amended: the two notebooks' `get_df` functions share an
identical extraction stage — per behaviors line the user id, the item
ids in shown order and the aligned prediction row — and the NRMS
version returns exactly these extracted rows (no sort, no grouping, no
label column). -/
theorem get_df_shared_extraction :
    (∀ behaviors group_preds,
      LSTUR.extractRows behaviors group_preds = NRMS.extractRows behaviors group_preds) ∧
    (∀ behaviors group_preds rows,
      NRMS.extractRows behaviors group_preds = some rows →
      NRMS.get_df behaviors group_preds = Except.ok rows) := by
  constructor
  · intro behaviors group_preds
    induction behaviors generalizing group_preds with
    | nil => rfl
    | cons line rest ih =>
      unfold LSTUR.extractRows NRMS.extractRows
      simp only [ih]
  · intro behaviors group_preds rows h
    unfold NRMS.get_df
    rw [h]

/-- Witness for the amended claim C10 at a concrete behaviors line. -/
theorem get_df_shared_extraction_witness :
    NRMS.extractRows ["U1\t11/11\tN0\tN1-0 N2-1"] [[(1 : ℚ)/10, 9/10]] =
      some [("U1", ["N1", "N2"], [(1 : ℚ)/10, 9/10])] ∧
    NRMS.get_df ["U1\t11/11\tN0\tN1-0 N2-1"] [[(1 : ℚ)/10, 9/10]] =
      Except.ok [("U1", ["N1", "N2"], [(1 : ℚ)/10, 9/10])] :=
  ⟨rfl, get_df_shared_extraction.2 ["U1\t11/11\tN0\tN1-0 N2-1"]
    [[(1 : ℚ)/10, 9/10]] [("U1", ["N1", "N2"], [(1 : ℚ)/10, 9/10])] rfl⟩

end NewsRec

namespace NewsRec

/-! ## Claim C5: NDCG -/

instance : IsTotal ℕ (fun a b : ℕ => b ≤ a) := ⟨fun a b => le_total b a⟩

instance : IsTrans ℕ (fun a b : ℕ => b ≤ a) := ⟨fun _ _ _ h1 h2 => le_trans h2 h1⟩

/-- The positionally weighted sum over an enumerated list as a
`Finset.range` sum. -/
theorem enumFrom_weighted_sum (disc : ℕ → ℚ) :
    ∀ (n : ℕ) (l : List ℕ),
      ((l.enumFrom n).map (fun p => (p.2 : ℚ) * disc (p.1 + 1))).sum
        = ∑ i in Finset.range l.length, (l.getD i 0 : ℚ) * disc (n + i + 1) := by
  intro n l
  induction l generalizing n with
  | nil => simp
  | cons a t ih =>
    rw [List.enumFrom_cons, List.map_cons, List.sum_cons, ih (n + 1),
      List.length_cons, Finset.sum_range_succ']
    rw [add_comm]
    congr 1
    apply Finset.sum_congr rfl
    intro i _
    rw [List.getD_cons_succ, show n + 1 + i + 1 = n + (i + 1) + 1 from by omega]

/-- Claim C5: `ndcg_at_k` is `DCG@k / IDCG@k` where `DCG@k` sums
`label_i * disc i` over 1-indexed positions `i = 1 .. min k |labels|`
(with `disc i` standing for `1 / log2(i+1)`), `IDCG@k` is the `DCG@k`
of the label list sorted descending (a sorted permutation of it), the
value is 0 whenever `IDCG@k` is 0, and the reported metric is the mean
over all users of the run. -/
theorem ndcg_contract (disc : ℕ → ℚ) (labels : List ℕ) (k : ℕ)
    (users : List (List ℕ)) :
    evaluation.dcg_at_k disc labels k
        = ∑ i in Finset.range (min k labels.length),
            (labels.getD i 0 : ℚ) * disc (i + 1) ∧
    evaluation.ndcg_at_k disc labels k
        = evaluation.dcg_at_k disc labels k / evaluation.idcg_at_k disc labels k ∧
    evaluation.idcg_at_k disc labels k
        = evaluation.dcg_at_k disc (evaluation.sortLabelsDesc labels) k ∧
    List.Sorted (fun a b : ℕ => b ≤ a) (evaluation.sortLabelsDesc labels) ∧
    (evaluation.sortLabelsDesc labels).Perm labels ∧
    (evaluation.idcg_at_k disc labels k = 0 →
      evaluation.ndcg_at_k disc labels k = 0) ∧
    evaluation.calculate_ndcg_at_k disc users k
        = ((users.map (fun ls => evaluation.ndcg_at_k disc ls k)).sum)
            / users.length := by
  refine ⟨?_, rfl, rfl, ?_, ?_, ?_, rfl⟩
  · unfold evaluation.dcg_at_k
    rw [show (labels.take k).enum = (labels.take k).enumFrom 0 from rfl,
      enumFrom_weighted_sum disc 0 (labels.take k), List.length_take]
    apply Finset.sum_congr rfl
    intro i hi
    have hik : i < k := lt_of_lt_of_le (Finset.mem_range.mp hi) (min_le_left _ _)
    rw [show (0 : ℕ) + i + 1 = i + 1 from by omega]
    congr 2
    rw [List.getD_eq_getElem?_getD, List.getD_eq_getElem?_getD,
      List.getElem?_take, if_pos hik]
  · exact List.sorted_insertionSort _ labels
  · exact List.perm_insertionSort _ labels
  · intro h
    unfold evaluation.ndcg_at_k
    rw [h, div_zero]

/-- Witness for claim C5 on the all-irrelevant list `[0, 0]`: the ideal
DCG is 0 and the zero-IDCG fallback of the theorem yields NDCG 0. -/
theorem ndcg_contract_witness :
    evaluation.idcg_at_k (fun _ => 1) [0, 0] 2 = 0 ∧
      evaluation.ndcg_at_k (fun _ => 1) [0, 0] 2 = 0 :=
  ⟨by simp [evaluation.idcg_at_k, evaluation.dcg_at_k, evaluation.sortLabelsDesc,
      List.insertionSort, List.orderedInsert, List.enum, List.enumFrom],
    (ndcg_contract (fun _ => 1) [0, 0] 2 []).2.2.2.2.2.1
      (by simp [evaluation.idcg_at_k, evaluation.dcg_at_k, evaluation.sortLabelsDesc,
        List.insertionSort, List.orderedInsert, List.enum, List.enumFrom])⟩

end NewsRec

namespace NewsRec

/-! ## Claim C6: diversity -/

/-- The inner row of the pairwise dissimilarity table. -/
def rowSum (sim : ℕ → ℕ → ℚ) (a : ℕ) (l : List ℕ) : ℚ :=
  (l.map (fun b => 1 - sim a b)).sum

/-- The full (ordered) pairwise dissimilarity table summed. -/
def totSum (sim : ℕ → ℕ → ℚ) (l : List ℕ) : ℚ :=
  (l.map (fun a => rowSum sim a l)).sum

/-- The diagonal of the pairwise dissimilarity table summed. -/
def diagSum (sim : ℕ → ℕ → ℚ) (l : List ℕ) : ℚ :=
  (l.map (fun a => 1 - sim a a)).sum

/-- Summing a pointwise sum of two functions splits. -/
theorem sum_map_split (f g : ℕ → ℚ) (l : List ℕ) :
    (l.map (fun x => f x + g x)).sum = (l.map f).sum + (l.map g).sum := by
  induction l with
  | nil => simp
  | cons a t ih =>
    simp only [List.map_cons, List.sum_cons, ih]
    ring

/-- For a symmetric similarity, twice the unordered pair sum is the full
table minus its diagonal. -/
theorem two_mul_pairSum (sim : ℕ → ℕ → ℚ) (hsym : ∀ a b, sim a b = sim b a) :
    ∀ l : List ℕ, 2 * evaluation.pairSum sim l = totSum sim l - diagSum sim l := by
  intro l
  induction l with
  | nil => simp [evaluation.pairSum, totSum, diagSum]
  | cons a t ih =>
    have hps : evaluation.pairSum sim (a :: t)
        = rowSum sim a t + evaluation.pairSum sim t := by
      simp [evaluation.pairSum, rowSum]
    have hdiag : diagSum sim (a :: t) = (1 - sim a a) + diagSum sim t := by
      simp [diagSum]
    have htot : totSum sim (a :: t)
        = (1 - sim a a) + rowSum sim a t + (rowSum sim a t + totSum sim t) := by
      unfold totSum
      rw [List.map_cons, List.sum_cons]
      have h1 : rowSum sim a (a :: t) = (1 - sim a a) + rowSum sim a t := by
        simp [rowSum]
      have h2 : (t.map (fun x => rowSum sim x (a :: t))).sum
          = (t.map (fun x => (1 - sim x a) + rowSum sim x t)).sum := by
        congr 1
      have h3 : (t.map (fun x => (1 - sim x a) + rowSum sim x t)).sum
          = (t.map (fun x => 1 - sim x a)).sum + (t.map (fun x => rowSum sim x t)).sum :=
        sum_map_split _ _ t
      have h4 : (t.map (fun x => 1 - sim x a)).sum = rowSum sim a t := by
        unfold rowSum
        congr 1
        apply List.map_congr_left
        intro x _
        rw [hsym x a]
      rw [h1, h2, h3, h4]
    rw [hps, hdiag, htot]
    linarith [ih]

/-- `rowSum` only depends on the multiset of the list. -/
theorem rowSum_perm (sim : ℕ → ℕ → ℚ) (a : ℕ) {l l' : List ℕ}
    (h : l.Perm l') : rowSum sim a l = rowSum sim a l' :=
  (h.map _).sum_eq

/-- `diagSum` only depends on the multiset of the list. -/
theorem diagSum_perm (sim : ℕ → ℕ → ℚ) {l l' : List ℕ}
    (h : l.Perm l') : diagSum sim l = diagSum sim l' :=
  (h.map _).sum_eq

/-- `totSum` only depends on the multiset of the list. -/
theorem totSum_perm (sim : ℕ → ℕ → ℚ) {l l' : List ℕ}
    (h : l.Perm l') : totSum sim l = totSum sim l' := by
  unfold totSum
  have h1 : (l.map (fun a => rowSum sim a l)).sum
      = (l.map (fun a => rowSum sim a l')).sum := by
    congr 1
    apply List.map_congr_left
    intro a _
    exact rowSum_perm sim a h
  rw [h1]
  exact (h.map _).sum_eq

/-- For a symmetric similarity the unordered pair sum is invariant
under permutation of the list. -/
theorem pairSum_perm (sim : ℕ → ℕ → ℚ) (hsym : ∀ a b, sim a b = sim b a)
    {l l' : List ℕ} (h : l.Perm l') :
    evaluation.pairSum sim l = evaluation.pairSum sim l' := by
  have h2 : 2 * evaluation.pairSum sim l = 2 * evaluation.pairSum sim l' := by
    rw [two_mul_pairSum sim hsym l, two_mul_pairSum sim hsym l',
      totSum_perm sim h, diagSum_perm sim h]
  exact mul_left_cancel₀ two_ne_zero h2

/-- Claim C6: for a symmetric item similarity, the per-user diversity is
invariant under re-ordering of the top-k list, is 0 for a single-item
list, equals the mean of `1 − sim` over all unordered item pairs when
the list has at least one pair, and the reported value is the mean
across users. -/
theorem diversity_contract (sim : ℕ → ℕ → ℚ) (hsym : ∀ a b, sim a b = sim b a)
    (items items' : List ℕ) (hperm : items.Perm items') (x : ℕ)
    (users : List (List ℕ)) :
    evaluation.diversity sim items = evaluation.diversity sim items' ∧
    evaluation.diversity sim [x] = 0 ∧
    (2 ≤ items.length →
      evaluation.diversity sim items
        = evaluation.pairSum sim items / (evaluation.numPairs items.length : ℚ)) ∧
    evaluation.diversity_eval sim users
      = ((users.map (fun l => evaluation.diversity sim l)).sum) / users.length := by
  refine ⟨?_, by simp [evaluation.diversity], ?_, rfl⟩
  · unfold evaluation.diversity
    rw [hperm.length_eq, pairSum_perm sim hsym hperm]
  · intro h2
    unfold evaluation.diversity
    rw [if_neg (by omega)]

/-- Witness for claim C6 with a constant similarity on the swapped
two-item list `[1, 2]` / `[2, 1]` and the singleton `[5]`. -/
theorem diversity_contract_witness :
    evaluation.diversity (fun _ _ => 0) [1, 2] = evaluation.diversity (fun _ _ => 0) [2, 1] ∧
    evaluation.diversity (fun _ _ => 0) [5] = 0 ∧
    evaluation.diversity (fun _ _ => 0) [1, 2]
      = evaluation.pairSum (fun _ _ => 0) [1, 2]
          / (evaluation.numPairs ([1, 2] : List ℕ).length : ℚ) :=
  ⟨(diversity_contract (fun _ _ => 0) (fun _ _ => rfl) [1, 2] [2, 1]
      (List.Perm.swap 2 1 []) 5 []).1,
   (diversity_contract (fun _ _ => 0) (fun _ _ => rfl) [1, 2] [2, 1]
      (List.Perm.swap 2 1 []) 5 []).2.1,
   (diversity_contract (fun _ _ => 0) (fun _ _ => rfl) [1, 2] [2, 1]
      (List.Perm.swap 2 1 []) 5 []).2.2.1 (by decide)⟩

end NewsRec

namespace NewsRec

/-! ## Claim C7: item similarity -/

/-- The dot product is symmetric. -/
theorem dot_comm (a b : List ℚ) : dot a b = dot b a := by
  induction a generalizing b with
  | nil => cases b <;> rfl
  | cons x xs ih =>
    cases b with
    | nil => rfl
    | cons y ys =>
      simp only [dot, List.zipWith_cons_cons, List.sum_cons]
      rw [mul_comm x y]
      have h := ih ys
      simp only [dot] at h
      rw [h]

/-- A vector's dot product with itself is a sum of squares, hence
nonnegative. -/
theorem dot_self_nonneg (a : List ℚ) : 0 ≤ dot a a := by
  induction a with
  | nil => simp [dot]
  | cons x xs ih =>
    simp only [dot, List.zipWith_cons_cons, List.sum_cons]
    have h1 := mul_self_nonneg x
    have h2 : 0 ≤ (List.zipWith (fun x y => x * y) xs xs).sum := by
      simpa [dot] using ih
    linarith

/-- The zero vector annihilates every dot product. -/
theorem dot_replicate_zero (n : ℕ) (w : List ℚ) :
    dot (List.replicate n 0) w = 0 := by
  induction n generalizing w with
  | zero => simp [dot]
  | succ m ih =>
    cases w with
    | nil => simp [dot]
    | cons y ys =>
      rw [List.replicate_succ]
      simp only [dot, List.zipWith_cons_cons, List.sum_cons, zero_mul]
      have h := ih ys
      simp only [dot] at h
      rw [h, add_zero]

/-- Claim C7: the item similarity is symmetric, reflexive on items with
a nonzero vector (`similarity(a,a) = 1`), and an all-OOV token list
yields the zero item vector whose similarity against anything is 0 —
never a division by zero. -/
theorem similarity_contract (a b : List ℚ) (emb : String → Option (List ℚ))
    (dim : ℕ) (tokens : List String) :
    cosSim a b = cosSim b a ∧
    (dot a a ≠ 0 → cosSim a a = 1) ∧
    ((∀ t ∈ tokens, emb t = none) →
      itemVector emb dim tokens = List.replicate dim 0 ∧
      ∀ v, cosSim (itemVector emb dim tokens) v = 0) := by
  refine ⟨?_, ?_, ?_⟩
  · unfold cosSim
    by_cases h : dot a a = 0 ∨ dot b b = 0
    · rw [if_pos h, if_pos (Or.symm h)]
    · rw [if_neg h, if_neg (fun hc => h (Or.symm hc))]
      rw [dot_comm a b, mul_comm]
  · intro h
    unfold cosSim
    rw [if_neg (by tauto)]
    rw [Real.mul_self_sqrt (by exact_mod_cast dot_self_nonneg a)]
    rw [div_self (by exact_mod_cast h)]
  · intro hoov
    have hfm : tokens.filterMap emb = [] := List.filterMap_eq_nil_iff.mpr hoov
    have hvec : itemVector emb dim tokens = List.replicate dim 0 := by
      unfold itemVector
      rw [hfm]
      simp
    refine ⟨hvec, ?_⟩
    intro v
    unfold cosSim
    rw [if_pos (Or.inl (by rw [hvec, dot_replicate_zero]))]

/-- Witness for claim C7 on the one-dimensional vector `[1]` and an
embedding store with every token OOV. -/
theorem similarity_contract_witness :
    cosSim [(1 : ℚ)] [(1 : ℚ)] = 1 ∧
    itemVector (fun _ => none) 2 ["w"] = List.replicate 2 0 ∧
    cosSim (itemVector (fun _ => none) 2 ["w"]) [(1 : ℚ), 0] = 0 :=
  ⟨(similarity_contract [1] [1] (fun _ => none) 2 ["w"]).2.1 (by simp [dot]),
   ((similarity_contract [1] [1] (fun _ => none) 2 ["w"]).2.2 (fun t _ => rfl)).1,
   ((similarity_contract [1] [1] (fun _ => none) 2 ["w"]).2.2 (fun t _ => rfl)).2
     [(1 : ℚ), 0]⟩

end NewsRec

namespace NewsRec

/-! ## Claim C8: the lambda sweep -/

/-- The sweep fold with arbitrary accumulators appends one diversity
and one NDCG value per lambda, in sweep order. -/
theorem sweep_foldl (divF ndcgF : ℚ → ℚ) :
    ∀ (ls : List ℚ) (d n : List ℚ),
      ls.foldl (fun acc lam => (acc.1 ++ [divF lam], acc.2 ++ [ndcgF lam])) (d, n)
        = (d ++ ls.map divF, n ++ ls.map ndcgF) := by
  intro ls
  induction ls with
  | nil => intro d n; simp
  | cons lam rest ih =>
    intro d n
    rw [List.foldl_cons, ih]
    simp

/-- The loop yields the two series aligned with the lambda sequence. -/
theorem sweep_eq_map (divF ndcgF : ℚ → ℚ) (ls : List ℚ) :
    sweep divF ndcgF ls = (ls.map divF, ls.map ndcgF) := by
  unfold sweep
  rw [sweep_foldl]
  simp

/-- Claim C8 (code bug): the evaluation never produces the per-lambda
metric series — the sweep cell's pre-loop
`explode(['pred', 'label', 'news_id'])` references the `label` column
absent from the frame (whose columns are `user_id`, `news_id`, `pred`
in both notebooks) and raises `KeyError` before the loop appends a
single value; had the referenced columns all existed, the loop would
produce exactly one diversity and one NDCG value per lambda, in sweep
order, positionally aligned with the swept lambda sequence. -/
theorem sweep_cell_keyerror (divF ndcgF : ℚ → ℚ) (ls : List ℚ)
    (cols : List String) :
    sweep_cell LSTUR.frameCols divF ndcgF ls
        = Except.error ("KeyError: " ++ "label") ∧
    sweep_cell LSTUR.frameCols divF ndcgF lamdas
        = Except.error "KeyError: label" ∧
    ((∀ c ∈ explodeCols, c ∈ cols) →
      sweep_cell cols divF ndcgF lamdas
        = Except.ok (lamdas.map divF, lamdas.map ndcgF)) := by
  refine ⟨rfl, rfl, ?_⟩
  intro h
  unfold sweep_cell
  have hf : explodeCols.find? (fun c => !decide (c ∈ cols)) = none := by
    rw [List.find?_eq_none]
    intro c hc
    simp [h c hc]
  rw [hf, sweep_eq_map]

/-- Witness for claim C8: the error at the notebooks' actual frame
columns, and the aligned series once a `label` column is present. -/
theorem sweep_cell_keyerror_witness :
    sweep_cell LSTUR.frameCols (fun _ => 0) (fun _ => 1) lamdas
        = Except.error "KeyError: label" ∧
    sweep_cell ["user_id", "news_id", "pred", "label"] (fun _ => 0) (fun _ => 1) lamdas
        = Except.ok (lamdas.map (fun _ => 0), lamdas.map (fun _ => 1)) :=
  ⟨(sweep_cell_keyerror (fun _ => 0) (fun _ => 1) lamdas []).2.1,
   (sweep_cell_keyerror (fun _ => 0) (fun _ => 1) lamdas
      ["user_id", "news_id", "pred", "label"]).2.2 (by decide)⟩

end NewsRec
